import Mathlib

/-!
Shallow embedding of the trading-bot source (`src/Bot.py`) and proofs about it.

Conventions used throughout:
* Python floats are modelled as exact rationals (`ℚ`); the timing / transport
  layer is out of scope.
* pandas `NaT` / a missing index value is modelled as `none`.
* Side effects (logging, websocket sends, order placement, reconnecting) are
  modelled as an explicit list of `Effect` values emitted by a handler.
-/

/-- The configured instrument pair (`PAIR` in the source, default value). -/
def PAIR : String := "XBT/USD"

/-- One decoded trade tick, as built in `on_message` from a trade-batch entry:
`time` from `float(trade_data[2])`, `price` from `float(trade_data[0])`,
`volume` from `float(trade_data[1])`. -/
structure Tick where
  time : ℚ
  price : ℚ
  volume : ℚ
deriving DecidableEq

/-- One row of the global pandas DataFrame `global_data` after
`set_index('time')`: the index label (`none` models `NaT`) together with the
`price` and `volume` columns. -/
structure Row where
  time : Option ℚ
  price : ℚ
  volume : ℚ
deriving DecidableEq

/-- Embedding of `update_global_data` (Bot.py lines 129-137).  The source does
`pd.concat([global_data, new_data], ignore_index=True)` followed by
`global_data.set_index('time', inplace=True)`.  After the first append the
`time` values live in the index, not in a column; `ignore_index=True` discards
that index, so every pre-existing row re-acquires `time = NaN` in the rebuilt
`time` column, and `set_index('time')` then gives all earlier rows a `NaT`
index label.  Only the newly appended row keeps its timestamp.  The `astype`
cast on `price`/`volume` is the identity here. -/
def update_global_data (ledger : List Row) (t : Tick) : List Row :=
  (ledger.map fun r => { r with time := none }) ++ [⟨some t.time, t.price, t.volume⟩]

/-- Appending a whole sequence of ticks, one `update_global_data` call each. -/
def appendAll (ledger : List Row) (ts : List Tick) : List Row :=
  ts.foldl update_global_data ledger

/-- The `price` column of the DataFrame, in row order. -/
def pricesOf (ledger : List Row) : List ℚ :=
  ledger.map fun r => r.price

/-- Local strategy state of `backtest_strategy`: the `position` variable
(0 = flat, 1 = long, -1 = short) and the `entry_price` variable
(`None` modelled as `none`). -/
structure StratState where
  position : Int
  entry_price : Option ℚ
deriving DecidableEq

/-- An order side passed to `execute_trade`. -/
inductive OrderAction where
  | buy
  | sell
deriving DecidableEq

/-- Observable outcome of one loop iteration of `backtest_strategy`:
the updated local state, the orders sent via `execute_trade` during the
iteration, and the value written into the `pnl` column at this row
(`none` when no exit fired; the column keeps its initialised `0.0`). -/
structure StepOut where
  state : StratState
  orders : List OrderAction
  exitPnl : Option ℚ
deriving DecidableEq

/-- Rolling mean of window `w` at row `i`, i.e.
`data['price'].rolling(window=w).mean()` evaluated at position `i`:
undefined (`NaN`, modelled `none`) until `w` points exist, then the arithmetic
mean of prices `i+1-w .. i`. -/
def sma (w : Nat) (prices : List ℚ) (i : Nat) : Option ℚ :=
  if i + 1 < w then none
  else some ((((prices.take (i + 1)).drop (i + 1 - w)).sum) / (w : ℚ))

/-- Loop body of `backtest_strategy` (Bot.py lines 157-221) once both moving
averages passed the `pd.notnull` test.  Returns `none` when the Python code
would raise (an arithmetic operation on `entry_price = None` while holding a
position — unreachable from the initial state, see the invariant below). -/
def stepStrategy (s : StratState) (price fast slow : ℚ) : Option StepOut :=
  if s.position = 0 then
    if fast > slow then
      some ⟨⟨1, some price⟩, [OrderAction.buy], none⟩
    else if fast < slow then
      some ⟨⟨-1, some price⟩, [OrderAction.sell], none⟩
    else
      some ⟨s, [], none⟩
  else if s.position = 1 then
    match s.entry_price with
    | none => none
    | some entry =>
      if price < entry * (1 - 2/100) then
        some ⟨⟨0, none⟩, [OrderAction.sell], some (price - entry)⟩
      else if price > entry * (1 + 3/100) then
        some ⟨⟨0, none⟩, [OrderAction.sell], some (price - entry)⟩
      else if price < fast then
        some ⟨⟨0, none⟩, [OrderAction.sell], some (price - entry)⟩
      else
        some ⟨s, [], none⟩
  else if s.position = -1 then
    match s.entry_price with
    | none => none
    | some entry =>
      if price > entry * (1 + 2/100) then
        some ⟨⟨0, none⟩, [OrderAction.buy], some (entry - price)⟩
      else if price < entry * (1 - 3/100) then
        some ⟨⟨0, none⟩, [OrderAction.buy], some (entry - price)⟩
      else if price > fast then
        some ⟨⟨0, none⟩, [OrderAction.buy], some (entry - price)⟩
      else
        some ⟨s, [], none⟩
  else
    some ⟨s, [], none⟩

/-- Full loop body including the `pd.notnull` guard on both averages
(Bot.py line 156): nothing happens at a row where either average is `NaN`. -/
def stepTick (s : StratState) (price : ℚ) (sma50 sma200 : Option ℚ) : Option StepOut :=
  match sma50, sma200 with
  | some fast, some slow => stepStrategy s price fast slow
  | _, _ => some ⟨s, [], none⟩

/-- The loop `for i in range(50, len(data))` of `backtest_strategy`, driven by
fuel (the number of remaining iterations): at index `i`, read the price and the
two rolling means, run the body, recurse on `i+1`. -/
def runAux (prices : List ℚ) : Nat → Nat → StratState → Option (StratState × List StepOut)
  | 0, _, s => some (s, [])
  | fuel + 1, i, s =>
    match stepTick s (prices.getD i 0) (sma 50 prices i) (sma 200 prices i) with
    | none => none
    | some out =>
      match runAux prices fuel (i + 1) out.state with
      | none => none
      | some (fin, outs) => some (fin, out :: outs)

/-- The whole strategy loop from its initial state `position = 0`,
`entry_price = None`, over indices `50 .. len-1`. -/
def runStrategy (prices : List ℚ) : Option (StratState × List StepOut) :=
  runAux prices (prices.length - 50) 50 ⟨0, none⟩

/-- The `pnl` column after the loop: initialised to `0.0` for every row
(line 151), overwritten at exit rows.  Rows `0 .. 49` are never visited by the
loop. -/
def pnlColumn (prices : List ℚ) (outs : List StepOut) : List ℚ :=
  List.replicate (min 50 prices.length) 0 ++ outs.map fun o => o.exitPnl.getD 0

/-- Running sums, the semantics of `pandas.Series.cumsum`. -/
def cumsum (xs : List ℚ) : List ℚ :=
  (List.range xs.length).map fun j => (xs.take (j + 1)).sum

/-- Maximum of a list, the semantics of `pandas.Series.max` (empty → `NaN`). -/
def listMax : List ℚ → Option ℚ
  | [] => none
  | x :: xs => some (xs.foldl max x)

/-- Running maxima, the semantics of `pandas.Series.cummax`. -/
def cummax (xs : List ℚ) : List ℚ :=
  (List.range xs.length).map fun j => (listMax (xs.take (j + 1))).getD 0

/-- Mean of a pandas series (`.mean()`). -/
def sampleMean (xs : List ℚ) : ℚ := xs.sum / (xs.length : ℚ)

/-- Numerator of the sample variance: the sum of squared deviations from the
mean.  `pandas.Series.std()` (ddof=1) equals `sqrt(sampleVarNum / (n - 1))`
for `n ≥ 2` and is `NaN` for `n ≤ 1`. -/
def sampleVarNum (xs : List ℚ) : ℚ :=
  (xs.map fun x => (x - sampleMean xs) ^ 2).sum

/-- Whether `data['pnl'].std()` is the number zero (so that the source test
`data['pnl'].std() != 0` fails): needs at least two rows and zero variance.
For `n ≤ 1` the std is `NaN`, and `NaN != 0` is true in Python. -/
def stdIsZero (xs : List ℚ) : Bool :=
  decide (2 ≤ xs.length) && decide (sampleVarNum xs = 0)

/-- Whether the logged Sharpe value is `NaN`: either the source takes the
`else` branch and logs the literal string `nan` (std equal to zero), or the
branch is taken with `std() = NaN` (at most one row) so that
`mean/std*sqrt(365)` is `NaN`. -/
def sharpeIsNaN (xs : List ℚ) : Bool :=
  stdIsZero xs || decide (xs.length ≤ 1)

/-- The observable result of `backtest_strategy` (Bot.py lines 139-244):
final loop state, the `pnl` column, all orders sent, the recorded trade pnls
(the exit rows, in order — the spec's TradeRecord sequence), the cumulative
pnl column, the logged max drawdown (`none` models the `nan` log of the
`else` branch) and whether the logged Sharpe value is `NaN`. -/
structure Backtest where
  final : StratState
  pnl_col : List ℚ
  orders : List OrderAction
  trades : List ℚ
  cumulative : List ℚ
  drawdown : Option ℚ
  sharpe_nan : Bool
deriving DecidableEq

/-- Embedding of `backtest_strategy` on a price series.  Returns `none` when
the Python function would raise: either inside the loop (see `stepStrategy`),
or at `data['cumulative_pnl'].iloc[-1]` on an empty frame (the `std() != 0`
test passes there because `NaN != 0`). -/
def backtest_strategy (prices : List ℚ) : Option Backtest :=
  match runStrategy prices with
  | none => none
  | some (fin, outs) =>
    if prices.length = 0 then
      none
    else
      let col := pnlColumn prices outs
      some
        { final := fin
          pnl_col := col
          orders := (outs.map fun o => o.orders).flatten
          trades := outs.filterMap fun o => o.exitPnl
          cumulative := cumsum col
          drawdown :=
            if stdIsZero col then none
            else listMax (List.zipWith (fun a c => a - c) (cummax (cumsum col)) (cumsum col))
          sharpe_nan := sharpeIsNaN col }

/-- The strategy-loop invariant claimed by the spec: the position is one of
flat/long/short, and `entry_price` is set exactly when a position is held. -/
def StratInv (s : StratState) : Prop :=
  (s.position = 0 ∨ s.position = 1 ∨ s.position = -1) ∧
  (s.entry_price.isSome = true ↔ s.position ≠ 0)

instance : DecidablePred StratInv := fun s => by
  unfold StratInv; infer_instance

/-- Decoded JSON values as far as `on_message` inspects them.  A JSON object is
abstracted to the two fields the handler reads, `message.get('event')` and
`message.get('status')`.  Numeric-string payload fields (`float("123")`) are
parsed as integers; decimal-string parsing is not modelled (no claim depends
on it, every concrete input below uses `num`). -/
inductive JVal where
  | num (q : ℚ)
  | str (s : String)
  | null
  | arr (elems : List JVal)
  | obj (event : Option String) (status : Option String)

/-- Python `float(x)` on a decoded JSON value: numbers and integer-looking
strings convert, everything else raises (`none`). -/
def pyFloat : JVal → Option ℚ
  | JVal.num q => some q
  | JVal.str s => (s.toInt?).map fun n => (n : ℚ)
  | _ => none

/-- Side effects a handler can perform, in program order. -/
inductive Effect where
  | logInfo
  | logError
  | sendPong
  | sendOrder (a : OrderAction)
  | reconnect
deriving DecidableEq

/-- What happens to a single `trade_data` entry in the loop of `on_message`
(Bot.py lines 49-62): decoded into a `Tick`, skipped with a log when it is not
a list of length at least 3, or a raised exception when a `float()` conversion
fails. -/
inductive EntryRes where
  | tick (t : Tick)
  | skip
  | exc
deriving DecidableEq

/-- Decode one `trade_data` entry.  The source reads `float(trade_data[2])`
(time), `float(trade_data[0])` (price) and `float(trade_data[1])` (volume)
before any state change, so the three conversions are collapsed into one
check. -/
def decodeEntry : JVal → EntryRes
  | JVal.arr ys =>
    if 3 ≤ ys.length then
      match pyFloat (ys.getD 2 JVal.null), pyFloat (ys.getD 0 JVal.null),
            pyFloat (ys.getD 1 JVal.null) with
      | some t, some p, some v => EntryRes.tick ⟨t, p, v⟩
      | _, _, _ => EntryRes.exc
    else EntryRes.skip
  | _ => EntryRes.skip

/-- The ticks a trade-data list yields when every entry decodes or is skipped
cleanly. -/
def decodedTicks (entries : List JVal) : List Tick :=
  entries.filterMap fun e =>
    match decodeEntry e with
    | EntryRes.tick t => some t
    | _ => none

/-- The inner `for trade_data in trade_data_list` loop: appends each decoded
tick to the ledger and logs it; logs and skips non-list entries; aborts with
the exception flag set when a `float()` conversion raises, keeping the ticks
already appended. -/
def processTrades (ledger : List Row) : List JVal → List Row × List Effect × Bool
  | [] => (ledger, [], false)
  | e :: rest =>
    match decodeEntry e with
    | EntryRes.tick t =>
      let res := processTrades (update_global_data ledger t) rest
      (res.1, Effect.logInfo :: res.2.1, res.2.2)
    | EntryRes.skip =>
      let res := processTrades ledger rest
      (res.1, Effect.logInfo :: res.2.1, res.2.2)
    | EntryRes.exc => (ledger, [], true)

/-- Mutable state touched by `on_message`: the global trade DataFrame.  The
strategy has no persistent state in the source (`backtest_strategy` recomputes
from scratch and is never called from `on_message`). -/
structure BotState where
  ledger : List Row
deriving DecidableEq

/-- Embedding of `send_pong` (Bot.py lines 89-95): one send attempt on the
connection plus the success log.  A transport-level send failure is outside
the model (it is caught inside `send_pong` and only logged). -/
def send_pong : List Effect := [Effect.sendPong, Effect.logInfo]

/-- Embedding of `on_message` (Bot.py lines 40-86).  The argument is the
result of `json.loads`: `none` when it raises on malformed input (the outer
`except` then logs the error), otherwise the decoded value.  Returns the new
state and the effects in program order.  The whole body is wrapped in
`try/except`, so the function is total: no inbound frame raises out of it,
and no branch closes the connection or reconnects. -/
def on_message (st : BotState) (msg : Option JVal) : BotState × List Effect :=
  match msg with
  | none => (st, [Effect.logError])
  | some m =>
    match m with
    | JVal.arr xs =>
      if xs.length = 5 then
        match xs.getD 2 JVal.null, xs.getD 3 JVal.null with
        | JVal.str ev, JVal.str pr =>
          if ev = "trade" ∧ pr = PAIR then
            match xs.getD 1 JVal.null with
            | JVal.arr entries =>
              if 0 < entries.length then
                let res := processTrades st.ledger entries
                (⟨res.1⟩, res.2.1 ++ if res.2.2 then [Effect.logError] else [])
              else (st, [Effect.logInfo])
            | _ => (st, [Effect.logInfo])
          else (st, [Effect.logInfo])
        | _, _ => (st, [Effect.logInfo])
      else (st, [Effect.logInfo])
    | JVal.obj ev _status =>
      match ev with
      | some "heartbeat" => (st, Effect.logInfo :: send_pong)
      | some "pong" => (st, [Effect.logInfo])
      | some "systemStatus" => (st, [Effect.logInfo])
      | some "subscriptionStatus" =>
        if _status = some "subscribed" then (st, [Effect.logInfo])
        else (st, [Effect.logError])
      | _ => (st, [Effect.logInfo])
    | _ => (st, [Effect.logInfo])

/-- Embedding of `on_error` (Bot.py lines 98-102): log, then run
`reconnect_websocket`. -/
def on_error (st : BotState) : BotState × List Effect :=
  (st, [Effect.logError, Effect.reconnect])

/-- Embedding of `on_close` (Bot.py lines 105-111): log, then run
`reconnect_websocket`. -/
def on_close (st : BotState) : BotState × List Effect :=
  (st, [Effect.logInfo, Effect.reconnect])

/-- Outcome of the remote `kraken.query_private('AddOrder', ...)` call:
either a response or a raised exception. -/
inductive OrdOutcome where
  | ok
  | exc
deriving DecidableEq

/-- Embedding of `execute_trade` (Bot.py lines 246-270): one order attempt,
then a success log or — when the remote call raises — the error log from the
`except` handler.  The exception never escapes. -/
def execute_trade (a : OrderAction) (outcome : OrdOutcome) : List Effect :=
  match outcome with
  | OrdOutcome.ok => [Effect.sendOrder a, Effect.logInfo]
  | OrdOutcome.exc => [Effect.sendOrder a, Effect.logError]

/-- One strategy-loop iteration together with the `execute_trade` calls it
makes, where `oracle` gives the remote outcome of each order.  The state
mutation and `pnl` write happen before `execute_trade` is called and do not
read its result. -/
def stepWithExec (s : StratState) (price : ℚ) (sma50 sma200 : Option ℚ)
    (oracle : OrderAction → OrdOutcome) : Option (StepOut × List Effect) :=
  match stepTick s price sma50 sma200 with
  | none => none
  | some out => some (out, (out.orders.map fun a => execute_trade a (oracle a)).flatten)

/-- A well-formed raw trade frame for the subscribed pair, shaped like the
5-element array Kraken sends: `[channelID, trade_data_list, "trade", PAIR, _]`. -/
def mkTradeFrame (entries : List JVal) : JVal :=
  JVal.arr [JVal.num 0, JVal.arr entries, JVal.str "trade", JVal.str PAIR, JVal.null]

/-- Recogniser for the frames `on_message` treats as a trade batch for the
subscribed pair (the branch at Bot.py lines 43-48 with a non-empty list). -/
def isTradeFrame : Option JVal → Bool
  | some (JVal.arr xs) =>
    decide (xs.length = 5) &&
    (match xs.getD 2 JVal.null, xs.getD 3 JVal.null with
     | JVal.str ev, JVal.str pr => decide (ev = "trade") && decide (pr = PAIR)
     | _, _ => false) &&
    (match xs.getD 1 JVal.null with
     | JVal.arr entries => decide (0 < entries.length)
     | _ => false)
  | _ => false

/-- A price series long enough for both averages: 200 ticks at 100, then a
crossover tick at 101 (long entry), a take-profit exit at 106 (pnl 5), a
re-entry at 106 and a second take-profit exit at 111 (pnl 5 again). -/
def pricesC5 : List ℚ := List.replicate 200 100 ++ [101, 106, 106, 111]

/-- A price series where the 50-tick average ends above the 200-tick average,
so the strategy would open a long position on the last tick. -/
def pricesC2 : List ℚ := List.replicate 150 100 ++ List.replicate 50 110

/-- The ledger holding the first 199 prices of `pricesC2` (timestamps already
clobbered to `NaT` by the repeated re-indexing, volumes 1). -/
def ledgerC2 : List Row :=
  (List.replicate 150 (100 : ℚ) ++ List.replicate 49 110).map fun p => ⟨none, p, 1⟩

/-- A trade frame carrying the 200th tick of `pricesC2` (price 110). -/
def frameC2 : JVal := mkTradeFrame [JVal.arr [JVal.num 110, JVal.num 1, JVal.num 5]]

/-- A trade frame whose first entry decodes fine and whose second entry makes
`float(trade_data[2])`-style conversion raise (a `null` price field). -/
def badBatch : JVal :=
  mkTradeFrame [JVal.arr [JVal.num 100, JVal.num 1, JVal.num 5],
                JVal.arr [JVal.null, JVal.num 1, JVal.num 5]]

/-- C1.  Evaluating `update_global_data` at the failing input: appending the
tick (time 1, price 10, volume 5) and then the tick (time 2, price 11, volume
6).  Prices and volumes are kept in exact append order and the call never
fails, but the first tick's timestamp has been destroyed (`none`, i.e. `NaT`)
by the `ignore_index=True` concat followed by `set_index('time')`, contrary to
the claim that every tick retains its original timestamp. -/
theorem C1_timestamp_lost :
    update_global_data (update_global_data [] ⟨1, 10, 5⟩) ⟨2, 11, 6⟩
      = [⟨none, 10, 5⟩, ⟨some 2, 11, 6⟩] ∧
    pricesOf (update_global_data (update_global_data [] ⟨1, 10, 5⟩) ⟨2, 11, 6⟩)
      = [10, 11] :=
  ⟨rfl, rfl⟩

/-- C3.  At any tick where both averages are defined and the position is flat:
fast above slow opens a long at the current price and emits one buy order;
fast below slow opens a short at the current price and emits one sell order;
equal averages change nothing and emit nothing. -/
theorem C3_flat_entry (s : StratState) (price fast slow : ℚ) (hpos : s.position = 0) :
    (fast > slow → stepTick s price (some fast) (some slow)
        = some ⟨⟨1, some price⟩, [OrderAction.buy], none⟩) ∧
    (fast < slow → stepTick s price (some fast) (some slow)
        = some ⟨⟨-1, some price⟩, [OrderAction.sell], none⟩) ∧
    (fast = slow → stepTick s price (some fast) (some slow) = some ⟨s, [], none⟩) := by
  refine ⟨fun h => ?_, fun h => ?_, fun h => ?_⟩
  · simp [stepTick, stepStrategy, hpos, h]
  · simp [stepTick, stepStrategy, hpos, h, lt_asymm h]
  · simp [stepTick, stepStrategy, hpos, h, lt_irrefl]

/-- Witness for `C3_flat_entry` at a concrete flat state and prices. -/
theorem C3_flat_entry_witness :
    stepTick ⟨0, none⟩ 5 (some 3) (some 2)
      = some ⟨⟨1, some 5⟩, [OrderAction.buy], none⟩ :=
  (C3_flat_entry ⟨0, none⟩ 5 3 2 rfl).1 (by norm_num)

/-- C4 counterexample.  With a long position entered at 100, a price of
exactly `100 * 0.98` satisfies the claimed non-strict stop-loss condition
`price ≤ entry * 0.98`, yet the code (strict `<` at Bot.py line 173) fires no
exit: the state is unchanged and no order is emitted. -/
theorem C4_boundary_no_exit :
    stepTick ⟨1, some 100⟩ 98 (some 90) (some 90) = some ⟨⟨1, some 100⟩, [], none⟩ ∧
    (98 : ℚ) ≤ 100 * (1 - 2/100) := by
  exact ⟨by with_unfolding_all rfl, by norm_num⟩

/-- C4 as amended: all four threshold comparisons are strict.  A long exits
(to flat, one sell order, recorded pnl `price - entry`) exactly when
`price < entry * 0.98` or `price > entry * 1.03` or `price < fast`; a short
exits (to flat, one buy order, recorded pnl `entry - price`) exactly when
`price > entry * 1.02` or `price < entry * 0.97` or `price > fast`; otherwise
the state is unchanged and no order is emitted.  All exit branches produce the
same observable outcome, so at most one exit fires per tick. -/
theorem C4_strict_exits (entry price fast slow : ℚ) :
    (stepTick ⟨1, some entry⟩ price (some fast) (some slow)
        = some ⟨⟨0, none⟩, [OrderAction.sell], some (price - entry)⟩
      ↔ (price < entry * (1 - 2/100) ∨ price > entry * (1 + 3/100) ∨ price < fast)) ∧
    (¬(price < entry * (1 - 2/100) ∨ price > entry * (1 + 3/100) ∨ price < fast) →
      stepTick ⟨1, some entry⟩ price (some fast) (some slow)
        = some ⟨⟨1, some entry⟩, [], none⟩) ∧
    (stepTick ⟨-1, some entry⟩ price (some fast) (some slow)
        = some ⟨⟨0, none⟩, [OrderAction.buy], some (entry - price)⟩
      ↔ (price > entry * (1 + 2/100) ∨ price < entry * (1 - 3/100) ∨ price > fast)) ∧
    (¬(price > entry * (1 + 2/100) ∨ price < entry * (1 - 3/100) ∨ price > fast) →
      stepTick ⟨-1, some entry⟩ price (some fast) (some slow)
        = some ⟨⟨-1, some entry⟩, [], none⟩) := by
  refine ⟨?_, ?_, ?_, ?_⟩
  · by_cases h1 : price < entry * (1 - 2/100) <;>
      by_cases h2 : price > entry * (1 + 3/100) <;>
      by_cases h3 : price < fast <;>
      simp [stepTick, stepStrategy, h1, h2, h3]
  · intro h
    push_neg at h
    obtain ⟨h1, h2, h3⟩ := h
    simp [stepTick, stepStrategy, not_lt.mpr h1, not_lt.mpr h2, not_lt.mpr h3]
  · by_cases h1 : price > entry * (1 + 2/100) <;>
      by_cases h2 : price < entry * (1 - 3/100) <;>
      by_cases h3 : price > fast <;>
      simp [stepTick, stepStrategy, h1, h2, h3]
  · intro h
    push_neg at h
    obtain ⟨h1, h2, h3⟩ := h
    simp [stepTick, stepStrategy, not_lt.mpr h1, not_lt.mpr h2, not_lt.mpr h3]

/-- Witness for `C4_strict_exits`: a long entered at 100 exits by stop-loss at
price 50. -/
theorem C4_strict_exits_witness :
    stepTick ⟨1, some 100⟩ 50 (some 0) (some 0)
      = some ⟨⟨0, none⟩, [OrderAction.sell], some (50 - 100)⟩ :=
  (C4_strict_exits 100 50 0 0).1.mpr (Or.inl (by norm_num))

/-- C6 counterexample.  A `subscriptionStatus` message whose status is not
`subscribed` makes `on_message` log an error and nothing else: no reconnect is
triggered (the effect list is exactly one error log), contrary to the claim. -/
theorem C6_no_reconnect :
    on_message ⟨[]⟩ (some (JVal.obj (some "subscriptionStatus") (some "error")))
      = (⟨[]⟩, [Effect.logError]) ∧
    Effect.reconnect ∉ [Effect.logError] :=
  ⟨rfl, by decide⟩

/-- C6 as amended: a subscription rejection is logged only; `on_message` never
reconnects.  The reconnect procedure runs only from the transport callbacks
`on_error` and `on_close`. -/
theorem C6_sub_error_logs_only (st : BotState) (status : Option String)
    (h : status ≠ some "subscribed") :
    on_message st (some (JVal.obj (some "subscriptionStatus") status))
      = (st, [Effect.logError]) ∧
    Effect.reconnect ∈ (on_error st).2 ∧ Effect.reconnect ∈ (on_close st).2 := by
  refine ⟨?_, by simp [on_error], by simp [on_close]⟩
  simp [on_message, h]

/-- Witness for `C6_sub_error_logs_only` with a missing status field. -/
theorem C6_sub_error_logs_only_witness :
    on_message ⟨[]⟩ (some (JVal.obj (some "subscriptionStatus") none))
      = (⟨[]⟩, [Effect.logError]) ∧
    Effect.reconnect ∈ (on_error ⟨[]⟩).2 ∧ Effect.reconnect ∈ (on_close ⟨[]⟩).2 :=
  C6_sub_error_logs_only ⟨[]⟩ none (by decide)

/-- C7.  The strategy state transition, the recorded pnl and the emitted
orders are computed before `execute_trade` runs and never read its outcome:
the observable strategy result is identical under any two remote-order
outcomes, and a failing order contributes only an error log. -/
theorem C7_commit_independent (s : StratState) (price : ℚ) (f50 f200 : Option ℚ)
    (o1 o2 : OrderAction → OrdOutcome) :
    (stepWithExec s price f50 f200 o1).map Prod.fst
      = (stepWithExec s price f50 f200 o2).map Prod.fst ∧
    ∀ a, Effect.logError ∈ execute_trade a OrdOutcome.exc := by
  constructor
  · unfold stepWithExec
    cases stepTick s price f50 f200 <;> rfl
  · intro a
    simp [execute_trade]

/-- C8.  A heartbeat event leaves the state untouched and produces, in program
order, the receipt log, exactly one pong send on the same connection, and the
pong-sent log; it never reconnects. -/
theorem C8_heartbeat_pong (st : BotState) (status : Option String) :
    (on_message st (some (JVal.obj (some "heartbeat") status))).1 = st ∧
    (on_message st (some (JVal.obj (some "heartbeat") status))).2
      = [Effect.logInfo, Effect.sendPong, Effect.logInfo] ∧
    ((on_message st (some (JVal.obj (some "heartbeat") status))).2.count Effect.sendPong = 1) ∧
    Effect.reconnect ∉ (on_message st (some (JVal.obj (some "heartbeat") status))).2 := by
  have h : (on_message st (some (JVal.obj (some "heartbeat") status))).2
      = [Effect.logInfo, Effect.sendPong, Effect.logInfo] := rfl
  refine ⟨rfl, h, ?_, ?_⟩
  · rw [h]
    decide
  · rw [h]
    decide

/-- Helper: one loop iteration never raises from an invariant-satisfying state
and preserves the invariant. -/
theorem stepTick_inv (s : StratState) (price : ℚ) (f50 f200 : Option ℚ)
    (h : StratInv s) :
    ∃ out, stepTick s price f50 f200 = some out ∧ StratInv out.state := by
  obtain ⟨hpos, hiff⟩ := h
  cases f50 with
  | none => exact ⟨⟨s, [], none⟩, rfl, hpos, hiff⟩
  | some fast =>
    cases f200 with
    | none => exact ⟨⟨s, [], none⟩, rfl, hpos, hiff⟩
    | some slow =>
      show ∃ out, stepStrategy s price fast slow = some out ∧ StratInv out.state
      rcases hpos with h0 | h1 | hm1
      · by_cases hgt : fast > slow
        · exact ⟨⟨⟨1, some price⟩, [OrderAction.buy], none⟩,
            by simp [stepStrategy, h0, hgt], by constructor <;> simp⟩
        · by_cases hlt : fast < slow
          · exact ⟨⟨⟨-1, some price⟩, [OrderAction.sell], none⟩,
              by simp [stepStrategy, h0, hgt, hlt], by constructor <;> simp⟩
          · exact ⟨⟨s, [], none⟩,
              by simp [stepStrategy, h0, hgt, hlt], ⟨Or.inl h0, hiff⟩⟩
      · have hne : s.position ≠ 0 := by rw [h1]; decide
        obtain ⟨entry, hentry⟩ := Option.isSome_iff_exists.mp (hiff.mpr hne)
        by_cases hc1 : price < entry * (1 - 2/100)
        · exact ⟨⟨⟨0, none⟩, [OrderAction.sell], some (price - entry)⟩,
            by simp [stepStrategy, h1, hentry, hc1], by constructor <;> simp⟩
        · by_cases hc2 : price > entry * (1 + 3/100)
          · exact ⟨⟨⟨0, none⟩, [OrderAction.sell], some (price - entry)⟩,
              by simp [stepStrategy, h1, hentry, hc1, hc2], by constructor <;> simp⟩
          · by_cases hc3 : price < fast
            · exact ⟨⟨⟨0, none⟩, [OrderAction.sell], some (price - entry)⟩,
                by simp [stepStrategy, h1, hentry, hc1, hc2, hc3], by constructor <;> simp⟩
            · exact ⟨⟨s, [], none⟩,
                by simp [stepStrategy, h1, hentry, hc1, hc2, hc3],
                ⟨Or.inr (Or.inl h1), hiff⟩⟩
      · have hne : s.position ≠ 0 := by rw [hm1]; decide
        obtain ⟨entry, hentry⟩ := Option.isSome_iff_exists.mp (hiff.mpr hne)
        by_cases hc1 : price > entry * (1 + 2/100)
        · exact ⟨⟨⟨0, none⟩, [OrderAction.buy], some (entry - price)⟩,
            by simp [stepStrategy, hm1, hentry, hc1], by constructor <;> simp⟩
        · by_cases hc2 : price < entry * (1 - 3/100)
          · exact ⟨⟨⟨0, none⟩, [OrderAction.buy], some (entry - price)⟩,
              by simp [stepStrategy, hm1, hentry, hc1, hc2], by constructor <;> simp⟩
          · by_cases hc3 : price > fast
            · exact ⟨⟨⟨0, none⟩, [OrderAction.buy], some (entry - price)⟩,
                by simp [stepStrategy, hm1, hentry, hc1, hc2, hc3], by constructor <;> simp⟩
            · exact ⟨⟨s, [], none⟩,
                by simp [stepStrategy, hm1, hentry, hc1, hc2, hc3],
                ⟨Or.inr (Or.inr hm1), hiff⟩⟩

/-- Helper: the whole loop never raises from an invariant-satisfying state and
its final state satisfies the invariant. -/
theorem runAux_inv (prices : List ℚ) (fuel : Nat) :
    ∀ i s, StratInv s → ∃ r, runAux prices fuel i s = some r ∧ StratInv r.1 := by
  induction fuel with
  | zero => exact fun i s h => ⟨(s, []), rfl, h⟩
  | succ n ih =>
    intro i s h
    obtain ⟨out, hstep, hout⟩ := stepTick_inv s (prices.getD i 0) (sma 50 prices i)
      (sma 200 prices i) h
    obtain ⟨r, hrun, hr⟩ := ih (i + 1) out.state hout
    obtain ⟨fin, outs⟩ := r
    exact ⟨(fin, out :: outs), by simp only [runAux, hstep, hrun], hr⟩

/-- C10.  Strategy-loop invariant: from any state with position in
{0, 1, -1} and `entry_price` set exactly when non-flat, one iteration never
raises and re-establishes the invariant — in particular every transition into
flat clears `entry_price` and every transition out of flat sets it — and the
whole loop from such a state never raises and ends in an invariant state. -/
theorem C10_invariant :
    (∀ (s : StratState) (price : ℚ) (f50 f200 : Option ℚ), StratInv s →
      ∃ out, stepTick s price f50 f200 = some out ∧ StratInv out.state ∧
        (out.state.position = 0 → out.state.entry_price = none) ∧
        (out.state.position ≠ 0 → out.state.entry_price ≠ none)) ∧
    (∀ (prices : List ℚ) (fuel i : Nat) (s : StratState), StratInv s →
      ∃ r, runAux prices fuel i s = some r ∧ StratInv r.1) := by
  constructor
  · intro s price f50 f200 h
    obtain ⟨out, he, hinv⟩ := stepTick_inv s price f50 f200 h
    refine ⟨out, he, hinv, ?_, ?_⟩
    · intro h0
      cases hentry : out.state.entry_price with
      | none => rfl
      | some p =>
        exact absurd h0 (hinv.2.mp (by rw [hentry]; rfl))
    · intro hne hnone
      have hs := hinv.2.mpr hne
      rw [hnone] at hs
      cases hs
  · exact fun prices fuel i s h => runAux_inv prices fuel i s h

/-- Witness for `C10_invariant`: the loop on a short price list from the
initial flat state. -/
theorem C10_invariant_witness :
    ∃ r, runAux [1, 2, 3] 3 0 ⟨0, none⟩ = some r ∧ StratInv r.1 :=
  C10_invariant.2 [1, 2, 3] 3 0 ⟨0, none⟩ ⟨Or.inl rfl, by simp⟩

/-- Helper: every effect the trade-batch loop emits is an info log. -/
theorem processTrades_effects (entries : List JVal) :
    ∀ ledger e, e ∈ (processTrades ledger entries).2.1 → e = Effect.logInfo := by
  induction entries with
  | nil =>
    intro l e he
    cases he
  | cons x rest ih =>
    intro l e he
    simp only [processTrades] at he
    cases hd : decodeEntry x with
    | tick t =>
      rw [hd] at he
      rcases List.mem_cons.mp he with h | h
      · exact h
      · exact ih (update_global_data l t) e h
    | skip =>
      rw [hd] at he
      rcases List.mem_cons.mp he with h | h
      · exact h
      · exact ih l e h
    | exc =>
      rw [hd] at he
      cases he

/-- Helper: when every entry of a trade batch decodes to a tick, the loop
appends exactly those ticks in order, logs one line per entry, and raises no
exception. -/
theorem processTrades_clean (entries : List JVal) :
    ∀ ledger, (∀ e ∈ entries, ∃ t, decodeEntry e = EntryRes.tick t) →
      processTrades ledger entries
        = (appendAll ledger (decodedTicks entries),
           List.replicate entries.length Effect.logInfo, false) := by
  induction entries with
  | nil =>
    intro l _
    rfl
  | cons x rest ih =>
    intro l h
    obtain ⟨t, ht⟩ := h x (List.mem_cons_self x rest)
    have hrest := fun e he => h e (List.mem_cons_of_mem x he)
    simp only [processTrades, ht, ih (update_global_data l t) hrest]
    simp [decodedTicks, ht, appendAll, List.replicate_succ]

set_option maxRecDepth 1000000 in
set_option maxHeartbeats 2000000 in
/-- C2 counterexample.  A trade frame for the subscribed pair is appended to
the ledger, but `on_message` only logs it: the effect list holds no order and
no strategy evaluation happens (the `backtest_strategy` call at Bot.py line 60
is commented out) — even though evaluating the strategy on the resulting data
would emit a buy order intent. -/
theorem C2_no_strategy_call :
    pricesOf (on_message ⟨ledgerC2⟩ (some frameC2)).1.ledger = pricesC2 ∧
    (on_message ⟨ledgerC2⟩ (some frameC2)).2 = [Effect.logInfo] ∧
    (backtest_strategy pricesC2).map Backtest.orders = some [OrderAction.buy] := by
  refine ⟨?_, ?_, ?_⟩ <;> with_unfolding_all rfl

/-- C2 as amended: every decoded tick of a well-formed trade batch is appended
to the ledger (in order, through `update_global_data`) and logged; no order
intent is ever emitted by message handling, because the strategy engine is not
invoked on tick arrival. -/
theorem C2_append_no_eval (st : BotState) (entries : List JVal)
    (h : ∀ e ∈ entries, ∃ t, decodeEntry e = EntryRes.tick t) :
    (on_message st (some (mkTradeFrame entries))).1.ledger
      = appendAll st.ledger (decodedTicks entries) ∧
    ∀ a, Effect.sendOrder a ∉ (on_message st (some (mkTradeFrame entries))).2 := by
  by_cases hlen : 0 < entries.length
  · have hred : on_message st (some (mkTradeFrame entries))
        = (⟨appendAll st.ledger (decodedTicks entries)⟩,
           List.replicate entries.length Effect.logInfo) := by
      simp [on_message, mkTradeFrame, PAIR, hlen, processTrades_clean entries st.ledger h]
    rw [hred]
    refine ⟨rfl, fun a => ?_⟩
    simp [List.mem_replicate]
  · have : entries = [] := List.length_eq_zero.mp (Nat.eq_zero_of_not_pos hlen)
    subst this
    exact ⟨rfl, fun a => by simp [on_message, mkTradeFrame]⟩

/-- Witness for `C2_append_no_eval`: a single well-formed entry with price 2,
volume 3, time 1. -/
theorem C2_append_no_eval_witness :
    (on_message ⟨[]⟩
        (some (mkTradeFrame [JVal.arr [JVal.num 2, JVal.num 3, JVal.num 1]]))).1.ledger
      = appendAll [] (decodedTicks [JVal.arr [JVal.num 2, JVal.num 3, JVal.num 1]]) ∧
    ∀ a, Effect.sendOrder a ∉ (on_message ⟨[]⟩
        (some (mkTradeFrame [JVal.arr [JVal.num 2, JVal.num 3, JVal.num 1]]))).2 :=
  C2_append_no_eval ⟨[]⟩ _ (by
    intro e he
    rw [List.mem_singleton] at he
    subst he
    exact ⟨⟨1, 2, 3⟩, rfl⟩)

/-- C9 counterexample.  A trade batch whose second entry fails `float()`
conversion is logged and dropped, yet the ledger is not unchanged: the tick
decoded before the failure stays appended. -/
theorem C9_partial_batch_mutates :
    on_message ⟨[]⟩ (some badBatch)
      = (⟨[⟨some 5, 100, 1⟩]⟩, [Effect.logInfo, Effect.logError]) ∧
    (⟨[⟨some 5, 100, 1⟩]⟩ : BotState) ≠ ⟨[]⟩ := by
  refine ⟨by with_unfolding_all rfl, by simp⟩


/-- Helper: every effect `on_message` can emit is a log line or a pong send —
never an order, never a reconnect. -/
theorem on_message_effects (st : BotState) (msg : Option JVal) :
    ∀ e ∈ (on_message st msg).2,
      e = Effect.logInfo ∨ e = Effect.logError ∨ e = Effect.sendPong := by
  cases msg with
  | none => simp [on_message]
  | some m =>
    cases m with
    | num q => simp [on_message]
    | str s => simp [on_message]
    | null => simp [on_message]
    | obj ev status =>
      intro e he
      simp only [on_message] at he
      repeat' split at he
      all_goals
        simp only [send_pong, List.mem_cons, List.mem_singleton, List.not_mem_nil,
          or_false, false_or] at he
      all_goals tauto
    | arr xs =>
      intro e he
      simp only [on_message] at he
      repeat' split at he
      all_goals
        simp only [List.mem_append, List.mem_cons, List.mem_singleton, List.not_mem_nil,
          or_false, false_or] at he
      all_goals try tauto
      all_goals try exact Or.inl (processTrades_effects _ _ _ he)
      all_goals
        rcases he with h | h
        · exact Or.inl (processTrades_effects _ _ _ h)
        · exact Or.inr (Or.inl h)

/-- Helper: any frame that is not a trade batch for the subscribed pair
leaves the state untouched. -/
theorem on_message_state (st : BotState) (msg : Option JVal)
    (h : isTradeFrame msg = false) : (on_message st msg).1 = st := by
  cases msg with
  | none => rfl
  | some m =>
    cases m with
    | num q => rfl
    | str s => rfl
    | null => rfl
    | obj ev status =>
      simp only [on_message]
      repeat' split
      all_goals rfl
    | arr xs =>
      simp only [on_message]
      repeat' split
      all_goals try rfl
      all_goals simp_all [isTradeFrame]

/-- C9 as amended: `on_message` is total (every raising path is caught), it
never reconnects or closes the connection, it never emits an order, and every
frame other than a well-formed trade batch leaves the ledger unchanged.  (A
trade batch failing mid-decode keeps the ticks appended before the failure —
see the counterexample.) -/
theorem C9_dropped_safe (st : BotState) (msg : Option JVal) :
    Effect.reconnect ∉ (on_message st msg).2 ∧
    (∀ a, Effect.sendOrder a ∉ (on_message st msg).2) ∧
    (isTradeFrame msg = false → (on_message st msg).1 = st) := by
  refine ⟨fun hmem => ?_, fun a hmem => ?_, fun h => on_message_state st msg h⟩
  · rcases on_message_effects st msg _ hmem with h | h | h <;> exact Effect.noConfusion h
  · rcases on_message_effects st msg _ hmem with h | h | h <;> exact Effect.noConfusion h

/-- Witness for `C9_dropped_safe` on a plain-string frame. -/
theorem C9_dropped_safe_witness :
    Effect.reconnect ∉ (on_message ⟨[]⟩ (some (JVal.str "hi"))).2 ∧
    (on_message ⟨[]⟩ (some (JVal.str "hi"))).1 = ⟨[]⟩ :=
  ⟨(C9_dropped_safe ⟨[]⟩ (some (JVal.str "hi"))).1,
   (C9_dropped_safe ⟨[]⟩ (some (JVal.str "hi"))).2.2 rfl⟩

/-- Helper: the initial value bounds a max fold. -/
theorem le_foldl_max (xs : List ℚ) : ∀ a, a ≤ xs.foldl max a := by
  induction xs with
  | nil => intro a; simp
  | cons x t ih =>
    intro a
    simpa using le_trans (le_max_left a x) (ih (max a x))

/-- Helper: each element bounds a max fold. -/
theorem mem_le_foldl_max (xs : List ℚ) : ∀ a x, x ∈ xs → x ≤ xs.foldl max a := by
  induction xs with
  | nil =>
    intro a x hx
    cases hx
  | cons y t ih =>
    intro a x hx
    rcases List.mem_cons.mp hx with h | h
    · subst h
      simpa using le_trans (le_max_right a x) (le_foldl_max t (max a x))
    · simpa using ih (max a y) x h

/-- Helper: a max fold returns its initial value or a list element. -/
theorem foldl_max_mem (xs : List ℚ) : ∀ a, xs.foldl max a = a ∨ xs.foldl max a ∈ xs := by
  induction xs with
  | nil => intro a; exact Or.inl rfl
  | cons y t ih =>
    intro a
    rw [List.foldl_cons]
    rcases ih (max a y) with h | h
    · rcases max_cases a y with ⟨he, _⟩ | ⟨he, _⟩
      · exact Or.inl (by rw [h, he])
      · exact Or.inr (by rw [h, he]; exact List.mem_cons_self y t)
    · exact Or.inr (List.mem_cons_of_mem y h)

/-- Helper: a nonempty list has a maximum. -/
theorem listMax_isSome (xs : List ℚ) (h : xs ≠ []) : ∃ m, listMax xs = some m := by
  cases xs with
  | nil => exact absurd rfl h
  | cons x t => exact ⟨t.foldl max x, rfl⟩

/-- Helper: the maximum is an element of the list. -/
theorem listMax_mem (xs : List ℚ) (m : ℚ) (h : listMax xs = some m) : m ∈ xs := by
  cases xs with
  | nil => cases h
  | cons x t =>
    simp only [listMax, Option.some.injEq] at h
    subst h
    rcases foldl_max_mem t x with h | h
    · rw [h]; exact List.mem_cons_self x t
    · exact List.mem_cons_of_mem x h

/-- Helper: the maximum bounds every element. -/
theorem le_listMax (xs : List ℚ) (m : ℚ) (h : listMax xs = some m) : ∀ x ∈ xs, x ≤ m := by
  cases xs with
  | nil =>
    intro x hx
    cases hx
  | cons y t =>
    simp only [listMax, Option.some.injEq] at h
    subst h
    intro x hx
    rcases List.mem_cons.mp hx with h | h
    · subst h; exact le_foldl_max t x
    · exact mem_le_foldl_max t y x h

/-- Helper: the loop produces exactly one step record per iteration. -/
theorem runAux_length (prices : List ℚ) (fuel : Nat) :
    ∀ i s r, runAux prices fuel i s = some r → r.2.length = fuel := by
  induction fuel with
  | zero =>
    intro i s r h
    simp only [runAux, Option.some.injEq] at h
    rw [← h]
    rfl
  | succ n ih =>
    intro i s r h
    simp only [runAux] at h
    cases hs : stepTick s (prices.getD i 0) (sma 50 prices i) (sma 200 prices i) with
    | none => rw [hs] at h; cases h
    | some out =>
      rw [hs] at h
      cases hr : runAux prices n (i + 1) out.state with
      | none => simp [hr] at h
      | some r2 =>
        obtain ⟨fin, outs⟩ := r2
        simp only [hr] at h
        cases Option.some.inj h
        simp [ih _ _ _ hr]

/-- Helper: the pnl column has one value per price row. -/
theorem pnlColumn_length (prices : List ℚ) (outs : List StepOut)
    (h : outs.length = prices.length - 50) :
    (pnlColumn prices outs).length = prices.length := by
  simp only [pnlColumn, List.length_append, List.length_replicate, List.length_map, h]
  omega

/-- Helper: a nonempty frame's pnl column contains the zero of some non-exit
or pre-loop row. -/
theorem zero_mem_pnlColumn (prices : List ℚ) (outs : List StepOut)
    (h : prices ≠ []) : (0 : ℚ) ∈ pnlColumn prices outs := by
  apply List.mem_append_left
  apply List.mem_replicate.mpr
  refine ⟨?_, rfl⟩
  have : 0 < prices.length := List.length_pos.mpr h
  omega

/-- Helper: every recorded trade pnl appears in the pnl column. -/
theorem trades_mem_pnlColumn (prices : List ℚ) (outs : List StepOut) (t : ℚ)
    (h : t ∈ outs.filterMap fun o => o.exitPnl) : t ∈ pnlColumn prices outs := by
  apply List.mem_append_right
  obtain ⟨o, ho, he⟩ := List.mem_filterMap.mp h
  exact List.mem_map.mpr ⟨o, ho, by rw [he]; rfl⟩

/-- Helper: the pnl column is all zero exactly when every recorded trade pnl
is zero. -/
theorem pnlColumn_zero_iff (prices : List ℚ) (outs : List StepOut) :
    (∀ x ∈ pnlColumn prices outs, x = 0)
      ↔ ∀ t ∈ outs.filterMap fun o => o.exitPnl, t = 0 := by
  constructor
  · intro h t ht
    exact h t (trades_mem_pnlColumn prices outs t ht)
  · intro h x hx
    rcases List.mem_append.mp hx with hx | hx
    · exact List.eq_of_mem_replicate hx
    · obtain ⟨o, ho, he⟩ := List.mem_map.mp hx
      cases hp : o.exitPnl with
      | none => rw [← he, hp]; rfl
      | some t =>
        rw [← he, hp]
        exact h t (List.mem_filterMap.mpr ⟨o, ho, hp⟩)

/-- Helper: a sum of squared deviations vanishes exactly when every element
equals the reference point. -/
theorem sum_sq_eq_zero_iff (c : ℚ) (xs : List ℚ) :
    ((xs.map fun x => (x - c) ^ 2).sum = 0) ↔ ∀ x ∈ xs, x = c := by
  induction xs with
  | nil => simp
  | cons a t ih =>
    simp only [List.map_cons, List.sum_cons, List.mem_cons]
    have h1 : (0 : ℚ) ≤ (a - c) ^ 2 := sq_nonneg _
    have h2 : (0 : ℚ) ≤ (t.map fun x => (x - c) ^ 2).sum := by
      apply List.sum_nonneg
      intro x hx
      obtain ⟨y, _, rfl⟩ := List.mem_map.mp hx
      exact sq_nonneg _
    rw [add_eq_zero_iff_of_nonneg h1 h2]
    constructor
    · rintro ⟨hz, hs⟩
      have ha : a = c := by
        have h0 := pow_eq_zero_iff (two_ne_zero) |>.mp hz
        linarith [sub_eq_zero.mp h0]
      rintro x (rfl | hx)
      · exact ha
      · exact (ih.mp hs) x hx
    · intro h
      refine ⟨?_, ih.mpr fun x hx => h x (Or.inr hx)⟩
      have : a = c := h a (Or.inl rfl)
      simp [this]

/-- Helper: for a nonempty series, the variance numerator vanishes exactly
when all entries are equal. -/
theorem sampleVarNum_eq_zero_iff (xs : List ℚ) (h : xs ≠ []) :
    sampleVarNum xs = 0 ↔ ∀ x ∈ xs, ∀ y ∈ xs, x = y := by
  unfold sampleVarNum
  rw [sum_sq_eq_zero_iff]
  constructor
  · intro hall x hx y hy
    rw [hall x hx, hall y hy]
  · intro hp x hx
    obtain ⟨a, t, rfl⟩ := List.exists_cons_of_ne_nil h
    have hxa : x = a := hp x hx a (List.mem_cons_self a t)
    have hsum : (a :: t).sum = (((a :: t).length : ℚ)) * a := by
      have hz : ∀ z ∈ a :: t, z = a := fun z hz => hp z hz a (List.mem_cons_self a t)
      rw [List.sum_eq_card_nsmul _ a hz]
      simp [nsmul_eq_mul]
    have hmean : sampleMean (a :: t) = a := by
      unfold sampleMean
      rw [hsum]
      have hlen : (((a :: t).length : ℚ)) ≠ 0 := by
        have h0 : (0 : ℚ) < (((a :: t).length : ℚ)) := by
          simp only [List.length_cons]
          exact_mod_cast Nat.succ_pos t.length
        exact ne_of_gt h0
      field_simp
    rw [hxa, hmean]

/-- Helper: the cumulative-sum column has the series length. -/
theorem cumsum_length (xs : List ℚ) : (cumsum xs).length = xs.length := by
  simp [cumsum]

/-- Helper: entry `i` of the cumulative-sum column is the sum of the first
`i+1` values. -/
theorem cumsum_getD (xs : List ℚ) (i : Nat) (h : i < xs.length) :
    (cumsum xs).getD i 0 = (xs.take (i + 1)).sum := by
  unfold cumsum
  rw [List.getD_eq_getElem _ _ (by simpa using h)]
  simp

/-- Helper: the running-max column has the series length. -/
theorem cummax_length (xs : List ℚ) : (cummax xs).length = xs.length := by
  simp [cummax]

/-- Helper: entry `i` of the running-max column is the max of the first `i+1`
values. -/
theorem cummax_getD (xs : List ℚ) (i : Nat) (h : i < xs.length) :
    (cummax xs).getD i 0 = (listMax (xs.take (i + 1))).getD 0 := by
  unfold cummax
  rw [List.getD_eq_getElem _ _ (by simpa using h)]
  simp

/-- Helper: the running maximum at row `j` bounds every earlier cumulative
value and is attained at some earlier row. -/
theorem prefixMax_facts (cum : List ℚ) (j : Nat) (hj : j < cum.length) :
    ∃ m, listMax (cum.take (j + 1)) = some m ∧
      (∀ i, i ≤ j → cum.getD i 0 ≤ m) ∧
      (∃ i, i ≤ j ∧ m = cum.getD i 0) := by
  have htlen : (cum.take (j + 1)).length = (j + 1) ⊓ cum.length := List.length_take _ _
  have htne : cum.take (j + 1) ≠ [] := by
    intro hnil
    rw [hnil] at htlen
    simp at htlen
    omega
  obtain ⟨m, hm⟩ := listMax_isSome _ htne
  refine ⟨m, hm, ?_, ?_⟩
  · intro i hi
    have hi' : i < cum.length := lt_of_le_of_lt hi hj
    have hi2 : i < (cum.take (j + 1)).length := by
      rw [htlen]
      omega
    rw [List.getD_eq_getElem _ _ hi']
    apply le_listMax _ m hm
    have he : (cum.take (j + 1))[i] = cum[i] := List.getElem_take cum
    rw [← he]
    exact List.getElem_mem hi2
  · have hmem := listMax_mem _ m hm
    obtain ⟨i, hi, hival⟩ := List.mem_iff_getElem.mp hmem
    have hij : i ≤ j := by
      rw [htlen] at hi
      omega
    have hi' : i < cum.length := by
      rw [htlen] at hi
      omega
    refine ⟨i, hij, ?_⟩
    rw [List.getD_eq_getElem _ _ hi', ← hival]
    exact List.getElem_take cum

/-- Helper: the max of (running max minus current) over the cumulative series
is exactly the largest peak-to-trough decline. -/
theorem drawdown_spec (cum : List ℚ) (hne : cum ≠ []) :
    ∃ d, listMax (List.zipWith (fun a c => a - c) (cummax cum) cum) = some d ∧
      (∀ i j, i ≤ j → j < cum.length → cum.getD i 0 - cum.getD j 0 ≤ d) ∧
      (∃ i j, i ≤ j ∧ j < cum.length ∧ d = cum.getD i 0 - cum.getD j 0) := by
  have hclen : (cummax cum).length = cum.length := cummax_length cum
  have hdlen : (List.zipWith (fun a c => a - c) (cummax cum) cum).length = cum.length := by
    rw [List.length_zipWith, hclen]
    simp
  have hdne : List.zipWith (fun a c => a - c) (cummax cum) cum ≠ [] := by
    intro hnil
    apply hne
    rw [hnil] at hdlen
    exact List.length_eq_zero.mp hdlen.symm
  obtain ⟨d, hd⟩ := listMax_isSome _ hdne
  have hval : ∀ j, (hj : j < cum.length) →
      (List.zipWith (fun a c => a - c) (cummax cum) cum).getD j 0
        = (listMax (cum.take (j + 1))).getD 0 - cum.getD j 0 := by
    intro j hj
    have hjd : j < (List.zipWith (fun a c => a - c) (cummax cum) cum).length := by
      rw [hdlen]; exact hj
    have hjc : j < (cummax cum).length := by rw [hclen]; exact hj
    rw [List.getD_eq_getElem _ _ hjd, List.getElem_zipWith, ← cummax_getD cum j hj,
      List.getD_eq_getElem _ _ hjc, List.getD_eq_getElem _ _ hj]
  refine ⟨d, hd, ?_, ?_⟩
  · intro i j hij hj
    obtain ⟨m, hm, hub, _⟩ := prefixMax_facts cum j hj
    have h1 : cum.getD i 0 ≤ m := hub i hij
    have h2 : (List.zipWith (fun a c => a - c) (cummax cum) cum).getD j 0 ≤ d := by
      apply le_listMax _ d hd
      have hjd : j < (List.zipWith (fun a c => a - c) (cummax cum) cum).length := by
        rw [hdlen]; exact hj
      rw [List.getD_eq_getElem _ _ hjd]
      exact List.getElem_mem hjd
    have h3 := hval j hj
    rw [hm] at h3
    have : cum.getD i 0 - cum.getD j 0 ≤ m - cum.getD j 0 := by linarith
    calc cum.getD i 0 - cum.getD j 0
        ≤ m - cum.getD j 0 := this
      _ = (List.zipWith (fun a c => a - c) (cummax cum) cum).getD j 0 := by
          rw [h3]; rfl
      _ ≤ d := h2
  · have hdmem := listMax_mem _ d hd
    obtain ⟨j, hjlt, hjval⟩ := List.mem_iff_getElem.mp hdmem
    have hj : j < cum.length := by rw [← hdlen]; exact hjlt
    obtain ⟨m, hm, _, i, hij, him⟩ := prefixMax_facts cum j hj
    refine ⟨i, j, hij, hj, ?_⟩
    have h3 := hval j hj
    rw [hm] at h3
    rw [List.getD_eq_getElem _ _ hjlt, hjval] at h3
    rw [h3, ← him]
    rfl

set_option maxRecDepth 1000000 in
set_option maxHeartbeats 4000000 in
/-- C5 counterexample.  On `pricesC5` the recorded trade pnls are `[5, 5]` —
all equal — yet the logged Sharpe value is not `NaN`: the source computes
`std()` over the whole per-tick `pnl` column, which also holds a zero for
every non-exit row, so its standard deviation is nonzero. -/
theorem C5_sharpe_not_nan :
    (backtest_strategy pricesC5).map (fun b => (b.trades, b.sharpe_nan))
      = some ([5, 5], false) := by
  with_unfolding_all rfl

/-- C5 as amended: the metrics are computed over the per-tick `pnl` column
(zero on non-exit rows), not over the trade records.  Cumulative pnl is the
running sum of that column; when the column's std is nonzero, the logged max
drawdown is exactly the largest value of (running max of cumulative pnl minus
current cumulative pnl); and the logged Sharpe value is `NaN` precisely when
every recorded trade pnl is zero (the column then being constant), not
whenever all recorded trade pnls are equal. -/
theorem C5_metrics (prices : List ℚ) (b : Backtest)
    (h : backtest_strategy prices = some b) :
    (∀ i, i < b.pnl_col.length → b.cumulative.getD i 0 = (b.pnl_col.take (i + 1)).sum) ∧
    (stdIsZero b.pnl_col = false →
      ∃ d, b.drawdown = some d ∧
        (∀ i j, i ≤ j → j < b.cumulative.length →
          b.cumulative.getD i 0 - b.cumulative.getD j 0 ≤ d) ∧
        (∃ i j, i ≤ j ∧ j < b.cumulative.length ∧
          d = b.cumulative.getD i 0 - b.cumulative.getD j 0)) ∧
    (b.sharpe_nan = true ↔ ∀ t ∈ b.trades, t = 0) := by
  unfold backtest_strategy at h
  cases hr : runStrategy prices with
  | none =>
    rw [hr] at h
    exact Option.noConfusion h
  | some p =>
    obtain ⟨fin, outs⟩ := p
    rw [hr] at h
    dsimp only at h
    by_cases hlen : prices.length = 0
    · rw [if_pos hlen] at h
      exact Option.noConfusion h
    · rw [if_neg hlen] at h
      simp only [Option.some.injEq] at h
      cases h
      have hprices_ne : prices ≠ [] := fun hn => hlen (by rw [hn]; rfl)
      have houts : outs.length = prices.length - 50 :=
        runAux_length prices _ _ _ _ hr
      have hcollen : (pnlColumn prices outs).length = prices.length :=
        pnlColumn_length _ _ houts
      have hcolne : pnlColumn prices outs ≠ [] := by
        intro hn
        apply hlen
        rw [← hcollen, hn]
        rfl
      refine ⟨?_, ?_, ?_⟩
      · intro i hi
        exact cumsum_getD _ i hi
      · intro hSz
        simp only [hSz, Bool.false_eq_true, if_false]
        have hcumne : cumsum (pnlColumn prices outs) ≠ [] := by
          intro hn
          apply hcolne
          have := cumsum_length (pnlColumn prices outs)
          rw [hn] at this
          exact List.length_eq_zero.mp this.symm
        exact drawdown_spec _ hcumne
      · have hzero : (0 : ℚ) ∈ pnlColumn prices outs :=
          zero_mem_pnlColumn prices outs hprices_ne
        constructor
        · intro hnan
          simp only [sharpeIsNaN, Bool.or_eq_true, decide_eq_true_eq] at hnan
          rcases hnan with hsz | hle
          · simp only [stdIsZero, Bool.and_eq_true, decide_eq_true_eq] at hsz
            have hall := (sampleVarNum_eq_zero_iff _ hcolne).mp hsz.2
            have hcz : ∀ x ∈ pnlColumn prices outs, x = 0 :=
              fun x hx => hall x hx 0 hzero
            exact (pnlColumn_zero_iff prices outs).mp hcz
          · have h1 : prices.length ≤ 1 := by rw [← hcollen]; exact hle
            have h0 : outs.length = 0 := by omega
            have hnil : outs = [] := List.length_eq_zero.mp h0
            subst hnil
            intro t ht
            cases ht
        · intro hz
          simp only [sharpeIsNaN, Bool.or_eq_true, decide_eq_true_eq]
          by_cases hle : (pnlColumn prices outs).length ≤ 1
          · exact Or.inr hle
          · left
            simp only [stdIsZero, Bool.and_eq_true, decide_eq_true_eq]
            refine ⟨by omega, ?_⟩
            apply (sampleVarNum_eq_zero_iff _ hcolne).mpr
            have hcz := (pnlColumn_zero_iff prices outs).mpr hz
            intro x hx y hy
            rw [hcz x hx, hcz y hy]

/-- Witness for `C5_metrics` at a three-tick series (too short for any trade,
pnl column all zero, Sharpe `NaN`). -/
theorem C5_metrics_witness :
    (Backtest.mk ⟨0, none⟩ [0, 0, 0] [] [] [0, 0, 0] none true).sharpe_nan = true
      ↔ ∀ t ∈ (Backtest.mk ⟨0, none⟩ [0, 0, 0] [] [] [0, 0, 0] none true).trades, t = 0 :=
  (C5_metrics [1, 2, 3] (Backtest.mk ⟨0, none⟩ [0, 0, 0] [] [] [0, 0, 0] none true)
    (by with_unfolding_all rfl)).2.2
